import Mathlib

/-!
Verification of the GBWT core: a shallow embedding of the per-node record
machinery and search algorithms of src/include/gbwt/support.h and
src/include/gbwt/algorithms.h, with theorems settling the frozen claims.
The search algorithms are templates over an index capability; the capability
set and the record byte codec are modelled from the specification where their
implementation files are not part of the sources.
-/

namespace GBWT

/-- Modelled from the spec: size_type and node_type are 64-bit unsigned
integers (utils.h is not among the sources); values wrap modulo 2^64. -/
def wordSize : Nat := 2 ^ 64

/-- Modelled from the spec: the reserved end-marker symbol 0 that delimits
paths. -/
def ENDMARKER : Nat := 0

/-- Modelled from the spec: distinguished sentinel offset, the all-ones
64-bit word. -/
def invalid_offset : Nat := wordSize - 1

/-- Modelled from the spec: distinguished sentinel sequence id, the all-ones
64-bit word. -/
def invalid_sequence : Nat := wordSize - 1

/-- Modelled from the spec: the invalid edge sentinel. -/
def invalid_edge : Nat × Nat := (ENDMARKER, invalid_offset)

/-- Modelled from the spec: a range is an inclusive pair with a distinguished
empty-range constant. -/
def Range.empty_range : Nat × Nat := (1, 0)

/-- Modelled from the spec: a range [sp, ep] is empty iff ep < sp. -/
def Range.isEmpty (r : Nat × Nat) : Bool := r.2 < r.1

/-- Modelled from the spec: size_type is unsigned, so subtracting 1 from 0
wraps to the all-ones word; this is the subtraction used to seed the search
ranges [0, count - 1] and [0, sequences - 1]. -/
def usub1 (n : Nat) : Nat := if n = 0 then wordSize - 1 else n - 1

/-- From src/include/gbwt/support.h line 45: the orientation flag mask. -/
def Node.REVERSE_MASK : Nat := 1

/-- From src/include/gbwt/support.h line 46: the shift for the node id. -/
def Node.ID_SHIFT : Nat := 1

/-- From src/include/gbwt/support.h line 48: Node::id. -/
def Node.id (node : Nat) : Nat := node >>> Node.ID_SHIFT

/-- From src/include/gbwt/support.h line 49: Node::is_reverse, the C++ bool
conversion of (node & REVERSE_MASK). -/
def Node.is_reverse (node : Nat) : Bool := (node &&& Node.REVERSE_MASK) != 0

/-- From src/include/gbwt/support.h line 50: Node::encode, truncated to the
64-bit word. -/
def Node.encode (node_id : Nat) (reversed : Bool) : Nat :=
  ((node_id <<< Node.ID_SHIFT) ||| (cond reversed 1 0)) % wordSize

/-- From src/include/gbwt/support.h line 51: Node::reverse. -/
def Node.reverse (node : Nat) : Nat := node ^^^ Node.REVERSE_MASK

/-- From src/include/gbwt/algorithms.h lines 39-50: a search state is a node
together with an offset range in that node. -/
structure SearchState where
  node : Nat
  range : Nat × Nat
deriving DecidableEq, Repr

/-- From src/include/gbwt/algorithms.h line 44: the default constructor gives
node 0 with the empty range. -/
def SearchState.default : SearchState := ⟨0, Range.empty_range⟩

/-- From src/include/gbwt/algorithms.h line 49: SearchState::empty. -/
def SearchState.empty (s : SearchState) : Bool := Range.isEmpty s.range

/-- Modelled from the spec: the index capability set consumed by the search
algorithms (GBWT and DynamicGBWT are not among the sources): contains, count,
sequences, the two LF forms, tryLocate and start, as listed in spec section 6.
The field lf is the range form LF(state, x); lfe is the edge form
LF(position). -/
structure GBWTIndex where
  contains : Nat → Bool
  count : Nat → Nat
  sequences : Nat
  lf : SearchState → Nat → Nat × Nat
  lfe : Nat × Nat → Nat × Nat
  tryLocate : Nat × Nat → Nat
  start : Nat → Nat × Nat

/-- From src/include/gbwt/algorithms.h lines 63-75: extend. The loop runs
while symbols remain and the range is non-empty; an uncontained symbol makes
it return a default-constructed SearchState. -/
def extend (index : GBWTIndex) : SearchState → List Nat → SearchState
  | state, [] => state
  | state, x :: rest =>
    if Range.isEmpty state.range then state
    else if index.contains x = false then SearchState.default
    else extend index ⟨x, index.lf state x⟩ rest

/-- From src/include/gbwt/algorithms.h lines 77-88: find. -/
def find (index : GBWTIndex) : List Nat → SearchState
  | [] => SearchState.default
  | x :: rest =>
    if index.contains x = false then SearchState.default
    else extend index ⟨x, (0, usub1 (index.count x))⟩ rest

/-- From src/include/gbwt/algorithms.h lines 90-96: prefix, seeded at the end
marker with the full row range. -/
def prefixSearch (index : GBWTIndex) (pattern : List Nat) : SearchState :=
  extend index ⟨ENDMARKER, (0, usub1 index.sequences)⟩ pattern

/-- Iterating the edge form of LF, used to describe the loops of locate and
extract. -/
def iterLF (index : GBWTIndex) : Nat → Nat × Nat → Nat × Nat
  | 0, pos => pos
  | k + 1, pos => iterLF index k (index.lfe pos)

/-- From src/include/gbwt/algorithms.h lines 115-120: the while(true) loop of
locate, embedded with explicit fuel; none means the loop has not returned
within the given number of iterations. -/
def locateLoop (index : GBWTIndex) : Nat → Nat × Nat → Option Nat
  | 0, _ => none
  | fuel + 1, pos =>
    if index.tryLocate pos ≠ invalid_sequence then some (index.tryLocate pos)
    else locateLoop index fuel (index.lfe pos)

/-- From src/include/gbwt/algorithms.h lines 108-121: locate. The contains
check happens once at entry; the loop carries the fuel of locateLoop. -/
def locate (index : GBWTIndex) (fuel : Nat) (pos : Nat × Nat) : Option Nat :=
  if index.contains pos.1 = false then some invalid_sequence
  else locateLoop index fuel pos

/-- From src/include/gbwt/algorithms.h lines 143-147: the emitting loop of
extract, embedded with explicit fuel counting LF steps; none means the loop
has not reached the end marker within the given number of steps. -/
def extractLoop (index : GBWTIndex) : Nat → Nat × Nat → Option (List Nat)
  | 0, pos => if pos.1 = ENDMARKER then some [] else none
  | fuel + 1, pos =>
    if pos.1 = ENDMARKER then some []
    else (extractLoop index fuel (index.lfe pos)).map (fun res => pos.1 :: res)

/-- From src/include/gbwt/algorithms.h lines 132-149: extract. -/
def extract (index : GBWTIndex) (fuel : Nat) (sequence : Nat) : Option (List Nat) :=
  if index.sequences ≤ sequence then some []
  else if index.start sequence = invalid_edge then some []
  else extractLoop index fuel (index.start sequence)

/-- A small concrete index storing the single path [2, 4], used to witness the
theorems: cells (2,0), (4,0) and (0,0) form the LF cycle of sequence 0, with
the one document-array sample at (4,0). -/
def W1 : GBWTIndex where
  contains := fun n => n == 0 || n == 2 || n == 4
  count := fun n => if n == 0 || n == 2 || n == 4 then 1 else 0
  sequences := 1
  lf := fun _ _ => Range.empty_range
  lfe := fun p =>
    if p = (2, 0) then (4, 0)
    else if p = (4, 0) then (0, 0)
    else if p = (0, 0) then (2, 0)
    else invalid_edge
  tryLocate := fun p => if p = (4, 0) then 0 else invalid_sequence
  start := fun s => if s = 0 then (2, 0) else invalid_edge

/-- A degenerate concrete index with no sequences and a contained node of
count zero, used to witness the unsigned-wrap theorem. -/
def W2 : GBWTIndex where
  contains := fun n => n == 6
  count := fun _ => 0
  sequences := 0
  lf := fun _ _ => Range.empty_range
  lfe := fun _ => invalid_edge
  tryLocate := fun _ => invalid_sequence
  start := fun _ => invalid_edge

/-- Modelled from the spec: the variable-byte code of the byte serializer
(ByteCode in utils.h, not among the sources): little-endian 7-bit groups, the
high bit of a byte marking continuation. The structural fuel is an upper
bound on the value; the fallback branch is never reached when the fuel is
sufficient. -/
def byteCodeWriteAux : Nat → Nat → List Nat
  | 0, value => [value % 128]
  | fuel + 1, value =>
    if value ≤ 127 then [value]
    else (value % 128 + 128) :: byteCodeWriteAux fuel (value / 128)

/-- The variable-byte code of a value, with sufficient fuel. -/
def byteCodeWrite (value : Nat) : List Nat := byteCodeWriteAux value value

/-- Modelled from the spec: the matching variable-byte decoder, returning the
value and the remaining bytes. -/
def byteCodeRead : List Nat → Option (Nat × List Nat)
  | [] => none
  | b :: rest =>
    if b ≤ 127 then some (b, rest)
    else (byteCodeRead rest).map (fun vr => (b - 128 + 128 * vr.1, vr.2))

/-- Modelled from the spec (section 4.2): the run coder threshold; with an
alphabet of size sigma below 255, runs shorter than 256 / sigma pack outrank
and length into one byte, and the threshold value marks a continuation;
otherwise runs are written with the variable-byte code. -/
def runContinues (sigma : Nat) : Nat := if 255 ≤ sigma then 0 else 256 / sigma

/-- Modelled from the spec (section 4.2): writing one run. Short runs pack
outrank and length in one byte; longer runs write the packed continuation
byte then the remaining length in variable-byte form; with a large alphabet
the outrank and length-1 are both variable-byte coded. -/
def runWrite (sigma value len : Nat) : List Nat :=
  if runContinues sigma = 0 then byteCodeWrite value ++ byteCodeWrite (len - 1)
  else if len < runContinues sigma then [value + sigma * (len - 1)]
  else (value + sigma * (runContinues sigma - 1))
    :: byteCodeWrite (len - runContinues sigma)

/-- Modelled from the spec (section 4.2): reading one run, inverting
runWrite. -/
def runRead (sigma : Nat) (bytes : List Nat) : Option ((Nat × Nat) × List Nat) :=
  if runContinues sigma = 0 then
    (byteCodeRead bytes).bind (fun vr =>
      (byteCodeRead vr.2).map (fun lr => ((vr.1, lr.1 + 1), lr.2)))
  else
    match bytes with
    | [] => none
    | b :: rest =>
      if b / sigma + 1 < runContinues sigma then
        some ((b % sigma, b / sigma + 1), rest)
      else
        (byteCodeRead rest).map
          (fun er => ((b % sigma, runContinues sigma + er.1), er.2))

/-- Writing a whole run-length encoded body. -/
def runsWrite (sigma : Nat) : List (Nat × Nat) → List Nat
  | [] => []
  | (value, len) :: rest => runWrite sigma value len ++ runsWrite sigma rest

/-- Reading a whole body back; the fuel is an upper bound on the number of
runs (each run consumes at least one byte). -/
def runsReadAux (sigma : Nat) : Nat → List Nat → Option (List (Nat × Nat))
  | _, [] => some []
  | 0, _ :: _ => none
  | fuel + 1, b :: rest =>
    (runRead sigma (b :: rest)).bind
      (fun rr => (runsReadAux sigma fuel rr.2).map (fun rs => rr.1 :: rs))

/-- From src/include/gbwt/support.h lines 91-193: the mutable per-node
record: body size, incoming and outgoing edge lists, run-length encoded body
of (outrank, length) pairs, and document-array samples. -/
structure DynamicRecord where
  body_size : Nat
  incoming : List (Nat × Nat)
  outgoing : List (Nat × Nat)
  body : List (Nat × Nat)
  ids : List (Nat × Nat)

/-- Expansion of a run-length encoded body into one outrank per position. -/
def runsExpand : List (Nat × Nat) → List Nat
  | [] => []
  | (value, len) :: rest => List.replicate len value ++ runsExpand rest

/-- Total length of a run-length encoded body. -/
def runsLen : List (Nat × Nat) → Nat
  | [] => 0
  | (_, len) :: rest => len + runsLen rest

/-- From src/include/gbwt/support.h line 104: DynamicRecord::size. -/
def DynamicRecord.size (d : DynamicRecord) : Nat := d.body_size

/-- From src/include/gbwt/support.h line 108: DynamicRecord::runs. -/
def DynamicRecord.runs (d : DynamicRecord) : Nat := d.body.length

/-- From src/include/gbwt/support.h line 107: DynamicRecord::outdegree. -/
def DynamicRecord.outdegree (d : DynamicRecord) : Nat := d.outgoing.length

/-- From src/include/gbwt/support.h line 157: DynamicRecord::successor. -/
def DynamicRecord.successor (d : DynamicRecord) (outrank : Nat) : Nat :=
  (d.outgoing.getD outrank (0, 0)).1

/-- From src/include/gbwt/support.h line 163: DynamicRecord::offset. -/
def DynamicRecord.offset (d : DynamicRecord) (outrank : Nat) : Nat :=
  (d.outgoing.getD outrank (0, 0)).2

/-- Modelled from the spec (section 4.1): edgeTo maps a successor node to its
outrank in the outgoing list, or to outdegree when the edge is missing
(support.h line 89 declares the helper; its body is not among the sources). -/
def edgeTo (dest : Nat) (outgoing : List (Nat × Nat)) : Nat :=
  outgoing.findIdx (fun e => e.1 == dest)

/-- The decoded body of a dynamic record, one outrank per BWT position. -/
def DynamicRecord.symbols (d : DynamicRecord) : List Nat := runsExpand d.body

/-- Modelled from the spec (section 4.1, DynamicRecord::LF(i), body not among
the sources): invalid_edge when i is at least the body size; otherwise the
successor of the outrank at position i, with the count of earlier positions
of that outrank added to the outgoing offset. -/
def DynamicRecord.LF (d : DynamicRecord) (i : Nat) : Nat × Nat :=
  if d.body_size ≤ i then invalid_edge
  else
    ((d.outgoing.getD (d.symbols.getD i 0) (0, 0)).1,
     (d.outgoing.getD (d.symbols.getD i 0) (0, 0)).2
       + (d.symbols.take i).count (d.symbols.getD i 0))

/-- Modelled from the spec (section 4.1, DynamicRecord::LF(i, to)):
invalid_offset when there is no edge to the destination, else the outgoing
offset plus the number of positions below i with the destination outrank. -/
def DynamicRecord.LFto (d : DynamicRecord) (i dest : Nat) : Nat :=
  if d.outgoing.length ≤ edgeTo dest d.outgoing then invalid_offset
  else (d.outgoing.getD (edgeTo dest d.outgoing) (0, 0)).2
    + (d.symbols.take i).count (edgeTo dest d.outgoing)

/-- Modelled from the spec (section 4.1, DynamicRecord::LF(range, to)): the
two endpoint LF computations; the empty range when the input range is empty,
the edge is missing, or the image is inverted. -/
def DynamicRecord.LFrange (d : DynamicRecord) (rg : Nat × Nat) (dest : Nat) : Nat × Nat :=
  if Range.isEmpty rg then Range.empty_range
  else if d.outgoing.length ≤ edgeTo dest d.outgoing then Range.empty_range
  else if d.LFto (rg.2 + 1) dest ≤ d.LFto rg.1 dest then Range.empty_range
  else (d.LFto rg.1 dest, d.LFto (rg.2 + 1) dest - 1)

/-- The inclusive slice [sp, ep] of a list. -/
def rangeSlice (l : List Nat) (sp ep : Nat) : List Nat := (l.take (ep + 1)).drop sp

/-- Modelled from the spec (section 4.1) and the comment at support.h lines
139-141: bdLF returns LF(range, to) and the number of characters x in the
range with Node::reverse(x) < Node::reverse(to); the characters are the
successor nodes of the body positions. -/
def DynamicRecord.bdLF (d : DynamicRecord) (rg : Nat × Nat) (dest : Nat) :
    (Nat × Nat) × Nat :=
  (d.LFrange rg dest,
   (rangeSlice d.symbols rg.1 rg.2).countP
     (fun s => Node.reverse (d.outgoing.getD s (0, 0)).1 < Node.reverse dest))

/-- Modelled from the spec (section 4.1, DynamicRecord::operator[]): the
successor node at body position i. -/
def DynamicRecord.nodeAt (d : DynamicRecord) (i : Nat) : Nat :=
  (d.outgoing.getD (d.symbols.getD i 0) (0, 0)).1

/-- Modelled from the spec (section 4.2): the delta coding of the outgoing
header; successor nodes are written as deltas from the previous successor,
offsets in plain variable-byte form. -/
def edgesWrite : Nat → List (Nat × Nat) → List Nat
  | _, [] => []
  | prev, (node, off) :: rest =>
    byteCodeWrite (node - prev) ++ byteCodeWrite off ++ edgesWrite node rest

/-- Modelled from the spec (section 4.2, DynamicRecord::writeBWT, body not
among the sources): the compressed representation is the variable-byte
outdegree, the delta-coded outgoing pairs, then the run-coded body with
alphabet size outdegree; an empty record is the single byte 0. -/
def DynamicRecord.writeBWT (d : DynamicRecord) : List Nat :=
  byteCodeWrite d.outgoing.length ++ edgesWrite 0 d.outgoing ++
    (if d.outgoing.length = 0 then [] else runsWrite d.outgoing.length d.body)

/-- Modelled from the spec (section 4.2): reading back k delta-coded outgoing
pairs. -/
def edgesRead : Nat → Nat → List Nat → Option (List (Nat × Nat) × List Nat)
  | 0, _, bytes => some ([], bytes)
  | k + 1, prev, bytes =>
    (byteCodeRead bytes).bind (fun dr =>
      (byteCodeRead dr.2).bind (fun or2 =>
        (edgesRead k (prev + dr.1) or2.2).map
          (fun pr => ((prev + dr.1, or2.1) :: pr.1, pr.2))))

/-- From src/include/gbwt/support.h lines 199-245: a compressed record is the
decoded outgoing header plus the body bytes of its slice of the byte
stream. -/
structure CompressedRecord where
  outgoing : List (Nat × Nat)
  body : List Nat

/-- Modelled from the spec (section 4.2): constructing a compressed record
from a byte stream (the CompressedRecord constructor body is not among the
sources): read the outdegree, then the delta-coded outgoing pairs; the rest
is the body. -/
def CompressedRecord.fromBytes (bytes : List Nat) : Option CompressedRecord :=
  (byteCodeRead bytes).bind (fun kr =>
    (edgesRead kr.1 0 kr.2).map (fun eb => ⟨eb.1, eb.2⟩))

/-- The run list decoded from the body bytes; the scans below walk it run by
run, as the byte scan of the C++ operations does. -/
def CompressedRecord.decodedRuns (c : CompressedRecord) : Option (List (Nat × Nat)) :=
  runsReadAux c.outgoing.length c.body.length c.body

/-- From src/include/gbwt/support.h line 216: CompressedRecord::outdegree. -/
def CompressedRecord.outdegree (c : CompressedRecord) : Nat := c.outgoing.length

/-- From src/include/gbwt/support.h line 243: CompressedRecord::successor. -/
def CompressedRecord.successor (c : CompressedRecord) (outrank : Nat) : Nat :=
  (c.outgoing.getD outrank (0, 0)).1

/-- From src/include/gbwt/support.h line 244: CompressedRecord::offset. -/
def CompressedRecord.offset (c : CompressedRecord) (outrank : Nat) : Nat :=
  (c.outgoing.getD outrank (0, 0)).2

/-- Modelled from the spec (section 4.2): size must scan the whole body. -/
def CompressedRecord.size (c : CompressedRecord) : Nat :=
  (c.decodedRuns.map runsLen).getD 0

/-- Modelled from the spec (section 4.2): runs must scan the whole body. -/
def CompressedRecord.runs (c : CompressedRecord) : Nat :=
  (c.decodedRuns.map List.length).getD 0

/-- One step of per-outrank counting while scanning runs. -/
def bumpCount (c : Nat → Nat) (r len : Nat) : Nat → Nat :=
  fun x => if x = r then c x + len else c x

/-- Modelled from the spec (section 4.2): the LF(i) scan walks runs from the
start, accumulating per-outrank counts, until the run containing i is
found. -/
def crLFscan (counts : Nat → Nat) (i : Nat) : List (Nat × Nat) → Option (Nat × Nat)
  | [] => none
  | (r, len) :: rest =>
    if i < len then some (r, counts r + i)
    else crLFscan (bumpCount counts r len) (i - len) rest

/-- Modelled from the spec (section 4.2, CompressedRecord::LF(i)). -/
def CompressedRecord.LF (c : CompressedRecord) (i : Nat) : Nat × Nat :=
  (((c.decodedRuns.bind (fun rs => crLFscan (fun _ => 0) i rs)).map
    (fun rc => ((c.outgoing.getD rc.1 (0, 0)).1,
      (c.outgoing.getD rc.1 (0, 0)).2 + rc.2)))).getD invalid_edge

/-- Modelled from the spec (section 4.2): the scan counting only the target
outrank among the first i positions, stopping at i. -/
def crCountScan (r : Nat) : List (Nat × Nat) → Nat → Nat
  | [], _ => 0
  | (v, len) :: rest, i =>
    (if v = r then min len i else 0) + crCountScan r rest (i - len)

/-- Modelled from the spec (section 4.2, CompressedRecord::LF(i, to)). -/
def CompressedRecord.LFto (c : CompressedRecord) (i dest : Nat) : Nat :=
  if c.outgoing.length ≤ edgeTo dest c.outgoing then invalid_offset
  else
    (c.decodedRuns.map (fun rs => (c.outgoing.getD (edgeTo dest c.outgoing) (0, 0)).2
        + crCountScan (edgeTo dest c.outgoing) rs i)).getD invalid_offset

/-- Modelled from the spec (section 4.2, CompressedRecord::LF(range, to)):
endpoint scans with the same normalization as the dynamic form. -/
def CompressedRecord.LFrange (c : CompressedRecord) (rg : Nat × Nat) (dest : Nat) :
    Nat × Nat :=
  if Range.isEmpty rg then Range.empty_range
  else if c.outgoing.length ≤ edgeTo dest c.outgoing then Range.empty_range
  else if c.LFto (rg.2 + 1) dest ≤ c.LFto rg.1 dest then Range.empty_range
  else (c.LFto rg.1 dest, c.LFto (rg.2 + 1) dest - 1)

/-- Modelled from the spec (section 4.2): the bidirectional scan accumulates,
run by run, the overlap of each run with the remaining range, for outranks
whose successor has a smaller reverse orientation than the destination. -/
def crBdScan (outgoing : List (Nat × Nat)) (dest : Nat) :
    List (Nat × Nat) → Nat → Nat → Nat
  | [], _, _ => 0
  | (r, len) :: rest, sp, ep1 =>
    (if Node.reverse (outgoing.getD r (0, 0)).1 < Node.reverse dest
      then min ep1 len - min sp len else 0)
      + crBdScan outgoing dest rest (sp - len) (ep1 - len)

/-- Modelled from the spec (section 4.2, CompressedRecord::bdLF). -/
def CompressedRecord.bdLF (c : CompressedRecord) (rg : Nat × Nat) (dest : Nat) :
    (Nat × Nat) × Nat :=
  (c.LFrange rg dest,
   (c.decodedRuns.map (fun rs => crBdScan c.outgoing dest rs rg.1 (rg.2 + 1))).getD 0)

/-- Modelled from the spec (section 4.2): the scan locating the run that
contains position i, for operator[]. -/
def crSymScan : List (Nat × Nat) → Nat → Option Nat
  | [], _ => none
  | (r, len) :: rest, i => if i < len then some r else crSymScan rest (i - len)

/-- Modelled from the spec (section 4.2, CompressedRecord::operator[]). -/
def CompressedRecord.nodeAt (c : CompressedRecord) (i : Nat) : Nat :=
  ((c.decodedRuns.bind (fun rs => crSymScan rs i)).map
    (fun r => (c.outgoing.getD r (0, 0)).1)).getD 0

/-- Well-formedness of a dynamic record at writeBWT time (spec section 3.2
invariants, after recode): outgoing successors strictly increasing, every
body run with a valid outrank and positive length, and body_size equal to
the decoded body length. -/
def DynamicRecord.wf (d : DynamicRecord) : Prop :=
  List.Pairwise (fun a b => a.1 < b.1) d.outgoing
  ∧ (∀ r ∈ d.body, r.1 < d.outgoing.length ∧ 1 ≤ r.2)
  ∧ d.body_size = (runsExpand d.body).length

/-- A concrete well-formed dynamic record (record of a node with successors 4
and 6 and body 4, 6, 6), used to witness the round-trip theorem. -/
def D0 : DynamicRecord where
  body_size := 3
  incoming := []
  outgoing := [(4, 0), (6, 2)]
  body := [(0, 1), (1, 2)]
  ids := []

/-- Modelled from the spec: the semantic content of a well-formed index that
locate relies on. Every valid BWT cell lies on the path of exactly one stored
sequence (seqOf, which makes the sequence through a cell unique); the edge
form of LF maps valid cells to valid cells of the same sequence; the cells of
one sequence form a single LF orbit (the walk continues through the
end-marker record back to the start of the same sequence); tryLocate either
reports no sample or reports the sequence id of its cell. -/
structure GBWTSem (index : GBWTIndex) where
  valid : Nat × Nat → Prop
  seqOf : Nat × Nat → Nat
  seq_lt : ∀ p, valid p → seqOf p < index.sequences
  lf_valid : ∀ p, valid p → valid (index.lfe p)
  lf_seq : ∀ p, valid p → seqOf (index.lfe p) = seqOf p
  orbit : ∀ p q, valid p → valid q → seqOf p = seqOf q → ∃ k, iterLF index k p = q
  tryLocate_sound : ∀ p, valid p → index.tryLocate p ≠ invalid_sequence →
    index.tryLocate p = seqOf p

/-- The semantic view of W1: the cells (2,0), (4,0), (0,0) all belong to
sequence 0 and form one LF cycle. -/
def W1sem : GBWTSem W1 where
  valid := fun p => p = (2, 0) ∨ p = (4, 0) ∨ p = (0, 0)
  seqOf := fun _ => 0
  seq_lt := fun _ _ => Nat.zero_lt_one
  lf_valid := fun p hp => by
    rcases hp with rfl | rfl | rfl
    all_goals decide
  lf_seq := fun p _ => rfl
  orbit := fun p q hp hq _ => by
    rcases hp with rfl | rfl | rfl
    all_goals rcases hq with rfl | rfl | rfl
    all_goals first
      | exact ⟨0, by decide⟩
      | exact ⟨1, by decide⟩
      | exact ⟨2, by decide⟩
  tryLocate_sound := fun p hp hne => by
    rcases hp with rfl | rfl | rfl
    · exact absurd (by decide) hne
    · decide
    · exact absurd (by decide) hne

theorem shiftLeft_one_lor (a b : Nat) (hb : b ≤ 1) : (a <<< 1) ||| b = 2 * a + b := by
  rcases Nat.le_one_iff_eq_zero_or_eq_one.mp hb with rfl | rfl
  · simp [Nat.shiftLeft_eq]
    ring
  · have h0 : a <<< 1 = Nat.bit false a := by
      simp [Nat.shiftLeft_eq, Nat.bit]
      ring
    have h1 : (1 : Nat) = Nat.bit true 0 := rfl
    rw [h0, h1, Nat.lor_bit]
    simp [Nat.bit]

/-- Counterexample for claim C8 as stated: node ids are 64-bit words, so
Node::encode truncates; the id 2^63 does not round-trip through Node::id
(encode(2^63, false) wraps to 0). -/
theorem node_encode_no_roundtrip_at_large_id :
    Node.id (Node.encode (2 ^ 63) false) = 0 ∧ (0 : Nat) ≠ 2 ^ 63 := by
  constructor
  · rfl
  · decide

/-- Claim C8 (amended): Node::reverse is an involution on every node value,
and Node::encode round-trips through Node::id and Node::is_reverse for every
node id below 2^63 and either orientation; ids of 2^63 or more wrap under the
64-bit truncation. -/
theorem node_reverse_involution_encode_roundtrip (n node_id : Nat) (rev : Bool)
    (hid : node_id < 2 ^ 63) :
    Node.reverse (Node.reverse n) = n
    ∧ Node.id (Node.encode node_id rev) = node_id
    ∧ Node.is_reverse (Node.encode node_id rev) = rev := by
  have hb : (cond rev 1 0 : Nat) ≤ 1 := by cases rev <;> simp
  have henc : Node.encode node_id rev = 2 * node_id + cond rev 1 0 := by
    rw [Node.encode, Node.ID_SHIFT, shiftLeft_one_lor _ _ hb]
    apply Nat.mod_eq_of_lt
    have : (2 : Nat) ^ 64 = 2 * 2 ^ 63 := by norm_num
    rw [wordSize, this]
    omega
  refine ⟨?_, ?_, ?_⟩
  · simp [Node.reverse, Node.REVERSE_MASK, Nat.xor_assoc]
  · rw [henc, Node.id, Node.ID_SHIFT, Nat.shiftRight_succ]
    simp only [Nat.shiftRight_zero]
    cases rev
    all_goals simp
    all_goals omega
  · rw [henc, Node.is_reverse, Node.REVERSE_MASK]
    have hmod : (2 * node_id + cond rev 1 0) &&& 1
        = (2 * node_id + cond rev 1 0) % 2 := Nat.and_one_is_mod _
    rw [hmod]
    cases rev
    all_goals simp [Nat.add_mul_mod_self_left]
    all_goals omega

/-- Witness for the amended claim C8 at node value 9, id 5 and reversed
orientation. -/
theorem node_reverse_involution_encode_roundtrip_witness :
    (5 : Nat) < 2 ^ 63
    ∧ (Node.reverse (Node.reverse 9) = 9
      ∧ Node.id (Node.encode 5 true) = 5
      ∧ Node.is_reverse (Node.encode 5 true) = true) :=
  ⟨by decide, node_reverse_involution_encode_roundtrip 9 5 true (by decide)⟩

theorem extend_of_empty (index : GBWTIndex) (state : SearchState)
    (l : List Nat) (h : Range.isEmpty state.range = true) :
    extend index state l = state := by
  cases l with
  | nil => rfl
  | cons x rest => simp [extend, h]

theorem extend_append (index : GBWTIndex) (state : SearchState)
    (l1 l2 : List Nat) :
    extend index (extend index state l1) l2 = extend index state (l1 ++ l2) := by
  induction l1 generalizing state with
  | nil => rfl
  | cons x xs ih =>
    by_cases h : Range.isEmpty state.range = true
    · rw [extend_of_empty index state (x :: xs) h,
        extend_of_empty index state ((x :: xs) ++ l2) (by simpa using h),
        extend_of_empty index state l2 h]
    · simp only [Bool.not_eq_true] at h
      by_cases hc : index.contains x = false
      · simp only [extend, List.cons_append, h, Bool.false_eq_true, if_false, hc, if_true]
        exact extend_of_empty index SearchState.default l2 rfl
      · simp only [extend, List.cons_append, h, Bool.false_eq_true, if_false, hc]
        exact ih _

/-- Claim C3: splitting a pattern and continuing the search equals searching
the whole pattern at once: for every index, any non-empty prefix x :: p and
any suffix s, extend(find(x :: p), s) = find(x :: p ++ s); in particular
extend(find([a,b]), [c,d]) = find([a,b,c,d]), including the cases where the
range becomes empty or a symbol is absent partway through. -/
theorem extend_find_eq_find_append (index : GBWTIndex) (x : Nat)
    (p s : List Nat) :
    extend index (find index (x :: p)) s = find index (x :: (p ++ s)) := by
  by_cases hc : index.contains x = false
  · simp only [find, hc, if_true]
    exact extend_of_empty index SearchState.default s rfl
  · simp only [find, hc, if_false]
    exact extend_append index _ p s

theorem extend_absent_empty (index : GBWTIndex) (l : List Nat) :
    ∀ state : SearchState, (∃ x ∈ l, index.contains x = false) →
      Range.isEmpty (extend index state l).range = true := by
  induction l with
  | nil => intro state h; simp at h
  | cons y ys ih =>
    intro state h
    by_cases hs : Range.isEmpty state.range = true
    · rw [extend_of_empty index state (y :: ys) hs]; exact hs
    · simp only [Bool.not_eq_true] at hs
      by_cases hy : index.contains y = false
      · simp only [extend, hs, hy]
        simp [SearchState.default, Range.empty_range, Range.isEmpty]
      · simp only [extend, hs, hy]
        simp only [Bool.false_eq_true, if_false]
        rcases h with ⟨x, hx, hcx⟩
        rcases List.mem_cons.mp hx with rfl | hx2
        · exact absurd hcx hy
        · exact ih _ ⟨x, hx2, hcx⟩

/-- Claim C5: if any symbol of the pattern is not contained in the index, find
returns an empty search state, regardless of where the absent symbol occurs
and of whether the range has already become empty before reaching it. -/
theorem find_absent_symbol_empty (index : GBWTIndex) (pattern : List Nat)
    (h : ∃ x ∈ pattern, index.contains x = false) :
    (find index pattern).empty = true := by
  cases pattern with
  | nil => simp at h
  | cons y ys =>
    by_cases hy : index.contains y = false
    · simp [find, hy, SearchState.empty, SearchState.default, Range.empty_range, Range.isEmpty]
    · simp only [find, hy, Bool.false_eq_true, if_false]
      rcases h with ⟨x, hx, hcx⟩
      rcases List.mem_cons.mp hx with rfl | hx2
      · exact absurd hcx hy
      · exact extend_absent_empty index ys _ ⟨x, hx2, hcx⟩

/-- Witness for claim C5 at the concrete index W1 and pattern [3], whose only
symbol is absent. -/
theorem find_absent_symbol_empty_witness :
    (∃ x ∈ [3], W1.contains x = false) ∧ (find W1 [3]).empty = true :=
  ⟨by decide, find_absent_symbol_empty W1 [3] (by decide)⟩

/-- Claim C7: prefix applied to the empty pattern returns the end-marker node
with the full row range [0, sequences - 1] (unsigned subtraction), for every
index, including those with zero sequences. -/
theorem prefix_empty_pattern (index : GBWTIndex) :
    prefixSearch index [] = ⟨ENDMARKER, (0, usub1 index.sequences)⟩ := rfl

/-- Claim C9: the two failure modes of extend return different states. If the
state reached after a prefix l1 still has a non-empty range and the next
symbol x is not contained, extend returns the default-constructed state
(node 0, the end marker, with the empty range), discarding the matched node;
if instead the range is empty after l1, the remaining symbols are ignored and
the returned state keeps the node matched so far with its empty range. The
default state has node ENDMARKER and an empty range, so both results are
empty. -/
theorem extend_failure_modes (index : GBWTIndex) (state : SearchState)
    (l1 l2 l3 : List Nat) (x : Nat) :
    (Range.isEmpty (extend index state l1).range = false →
      index.contains x = false →
      extend index state (l1 ++ x :: l2) = SearchState.default)
    ∧ (Range.isEmpty (extend index state l1).range = true →
      extend index state (l1 ++ l3) = extend index state l1)
    ∧ SearchState.default.node = ENDMARKER
    ∧ Range.isEmpty SearchState.default.range = true := by
  refine ⟨?_, ?_, rfl, rfl⟩
  · intro hne hx
    rw [← extend_append]
    generalize extend index state l1 = s at hne ⊢
    simp [extend, hne, hx]
  · intro he
    rw [← extend_append, extend_of_empty index _ l3 he]

/-- Witness for claim C9 at the concrete index W1: from state (2, [0,0]) the
absent symbol 3 yields the default state; from state (2, [1,0]) with an empty
range the contained symbol 4 leaves the state unchanged. -/
theorem extend_failure_modes_witness :
    extend W1 ⟨2, (0, 0)⟩ [3] = SearchState.default
    ∧ extend W1 ⟨2, (1, 0)⟩ [4] = extend W1 ⟨2, (1, 0)⟩ [] :=
  ⟨(extend_failure_modes W1 ⟨2, (0, 0)⟩ [] [] [4] 3).1 (by decide) (by decide),
   (extend_failure_modes W1 ⟨2, (1, 0)⟩ [] [] [4] 3).2.1 (by decide)⟩

/-- Claim C10: the seed ranges of find and prefix use unsigned 64-bit
subtraction. A contained symbol x with count 0 makes find return the
non-empty state (x, [0, 2^64 - 1]); an index with no sequences makes prefix
of the empty pattern return the non-empty state (ENDMARKER, [0, 2^64 - 1]). -/
theorem seed_range_unsigned_wrap :
    (∀ (index : GBWTIndex) (x : Nat),
      index.contains x = true → index.count x = 0 →
      find index [x] = ⟨x, (0, wordSize - 1)⟩ ∧ (find index [x]).empty = false)
    ∧ (∀ index2 : GBWTIndex, index2.sequences = 0 →
      prefixSearch index2 [] = ⟨ENDMARKER, (0, wordSize - 1)⟩
      ∧ (prefixSearch index2 []).empty = false) := by
  constructor
  · intro index x hc h0
    have h1 : find index [x] = ⟨x, (0, wordSize - 1)⟩ := by
      simp [find, hc, h0, extend, usub1]
    refine ⟨h1, ?_⟩
    rw [h1]
    simp [SearchState.empty, Range.isEmpty]
  · intro index2 hs
    have h1 : prefixSearch index2 [] = ⟨ENDMARKER, (0, wordSize - 1)⟩ := by
      simp [prefixSearch, extend, hs, usub1]
    refine ⟨h1, ?_⟩
    rw [h1]
    simp [SearchState.empty, Range.isEmpty]

/-- Witness for claim C10 at the concrete index W2, which contains node 6
with count 0 and has no sequences. -/
theorem seed_range_unsigned_wrap_witness :
    find W2 [6] = ⟨6, (0, wordSize - 1)⟩
    ∧ prefixSearch W2 [] = ⟨ENDMARKER, (0, wordSize - 1)⟩ :=
  ⟨(seed_range_unsigned_wrap.1 W2 6 (by decide) (by decide)).1,
   (seed_range_unsigned_wrap.2 W2 (by decide)).1⟩

theorem locateLoop_reaches (index : GBWTIndex) (sem : GBWTSem index) :
    ∀ (k : Nat) (p : Nat × Nat) (m : Nat), sem.valid p →
      index.tryLocate (iterLF index k p) ≠ invalid_sequence →
      k < m → locateLoop index m p = some (sem.seqOf p) := by
  intro k
  induction k with
  | zero =>
    intro p m hp hs hm
    cases m with
    | zero => omega
    | succ m2 =>
      have hs0 : index.tryLocate p ≠ invalid_sequence := hs
      simp only [locateLoop]
      rw [if_pos hs0, sem.tryLocate_sound p hp hs0]
  | succ k ih =>
    intro p m hp hs hm
    cases m with
    | zero => omega
    | succ m2 =>
      by_cases h : index.tryLocate p ≠ invalid_sequence
      · simp only [locateLoop]
        rw [if_pos h, sem.tryLocate_sound p hp h]
      · simp only [locateLoop]
        rw [if_neg h,
          ih (index.lfe p) m2 (sem.lf_valid p hp) hs (by omega),
          sem.lf_seq p hp]

/-- Claim C2: for every index with the semantic structure of the spec and
every valid position, if every stored sequence contributes at least one
document-array sample along its body, then locate terminates (for all
sufficient fuel) and returns the sequence id of the unique sequence whose
path passes through that BWT cell. -/
theorem locate_terminates_unique (index : GBWTIndex) (sem : GBWTSem index)
    (p : Nat × Nat) (hp : sem.valid p)
    (hsample : ∀ s, s < index.sequences →
      ∃ q, sem.valid q ∧ sem.seqOf q = s ∧ index.tryLocate q ≠ invalid_sequence)
    (hc : index.contains p.1 = true) :
    ∃ n, ∀ m, n ≤ m → locate index m p = some (sem.seqOf p) := by
  obtain ⟨q, hq, hqs, hqt⟩ := hsample (sem.seqOf p) (sem.seq_lt p hp)
  obtain ⟨k, hk⟩ := sem.orbit p q hp hq hqs.symm
  refine ⟨k + 1, fun m hm => ?_⟩
  rw [locate, if_neg (by simp [hc])]
  exact locateLoop_reaches index sem k p m hp (by rw [hk]; exact hqt) (by omega)

/-- Witness for claim C2 at the concrete index W1 and cell (2, 0): locate
walks to the sample at (4, 0) and returns sequence 0. -/
theorem locate_terminates_unique_witness :
    ∃ n, ∀ m, n ≤ m → locate W1 m (2, 0) = some 0 :=
  locate_terminates_unique W1 W1sem (2, 0) (Or.inl rfl)
    (fun s hs => ⟨(4, 0), Or.inr (Or.inl rfl),
      by
        have hs1 : s < 1 := hs
        have h0 : s = 0 := by omega
        exact Eq.trans (by rfl) h0.symm,
      by decide⟩)
    (by decide)

theorem extractLoop_spec (index : GBWTIndex) :
    ∀ (n fuel : Nat) (p : Nat × Nat),
      (∀ j, j < n → (iterLF index j p).1 ≠ ENDMARKER) →
      (iterLF index n p).1 = ENDMARKER → n ≤ fuel →
      extractLoop index fuel p
        = some ((List.range n).map (fun j => (iterLF index j p).1)) := by
  intro n
  induction n with
  | zero =>
    intro fuel p _ hend _
    have hend0 : p.1 = ENDMARKER := hend
    cases fuel with
    | zero => simp only [extractLoop]; rw [if_pos hend0]; rfl
    | succ f => simp only [extractLoop]; rw [if_pos hend0]; rfl
  | succ n ih =>
    intro fuel p hne hend hf
    cases fuel with
    | zero => omega
    | succ f =>
      have h0 : p.1 ≠ ENDMARKER := hne 0 (Nat.succ_pos n)
      have hend2 : (iterLF index n (index.lfe p)).1 = ENDMARKER := hend
      simp only [extractLoop]
      rw [if_neg h0,
        ih f (index.lfe p) (fun j hj => hne (j + 1) (by omega)) hend2 (by omega)]
      simp only [Option.map_some']
      congr 1
      rw [List.range_succ_eq_map, List.map_cons, List.map_map]
      rfl

/-- Claim C4: extract returns the empty path when the sequence id is at least
sequences() or when the start position is the invalid edge; otherwise, when
the LF walk from start(sequence) reaches the end marker, extract emits
exactly the nodes visited by repeated LF steps up to but not including the
first end marker: the stored path. -/
theorem extract_spec (index : GBWTIndex) (sequence fuel : Nat) :
    (index.sequences ≤ sequence → extract index fuel sequence = some [])
    ∧ (index.start sequence = invalid_edge → extract index fuel sequence = some [])
    ∧ (∀ h : ∃ k, (iterLF index k (index.start sequence)).1 = ENDMARKER,
        sequence < index.sequences → index.start sequence ≠ invalid_edge →
        Nat.find h ≤ fuel →
        extract index fuel sequence
          = some ((List.range (Nat.find h)).map
              (fun j => (iterLF index j (index.start sequence)).1))) := by
  refine ⟨?_, ?_, ?_⟩
  · intro hle
    rw [extract, if_pos hle]
  · intro hstart
    rw [extract]
    by_cases hle : index.sequences ≤ sequence
    · rw [if_pos hle]
    · rw [if_neg hle, if_pos hstart]
  · intro h hlt hstart hfuel
    rw [extract, if_neg (by omega), if_neg hstart]
    exact extractLoop_spec index (Nat.find h) fuel (index.start sequence)
      (fun j hj => Nat.find_min h hj) (Nat.find_spec h) hfuel

/-- Witness for claim C4 at the concrete index W1: extracting sequence 0
yields its stored path [2, 4]. -/
theorem extract_spec_witness : extract W1 5 0 = some [2, 4] := by
  have hex : ∃ k, (iterLF W1 k (W1.start 0)).1 = ENDMARKER := ⟨2, by decide⟩
  have hfind : Nat.find hex = 2 := by
    rw [Nat.find_eq_iff]
    exact ⟨by decide, by decide⟩
  have h := (extract_spec W1 0 5).2.2 hex (by decide) (by decide)
    (by rw [hfind]; omega)
  rw [h, hfind]
  decide

theorem locateLoop_stuck_at_invalid_edge :
    ∀ fuel, locateLoop W1 fuel invalid_edge = none := by
  intro fuel
  induction fuel with
  | zero => rfl
  | succ f ih =>
    simp only [locateLoop]
    rw [if_neg (by decide)]
    have hfix : W1.lfe invalid_edge = invalid_edge := by decide
    rw [hfix, ih]

/-- Claim C6 (code behavior at the failing input): at the index W1, node 2 is
contained and its record body has size count(2) = 1, yet locate at the
out-of-range position (2, 5) never returns: the loop only checks contains at
entry, tryLocate finds no sample at an invalid position, LF yields the
invalid edge, and the walk spins on the invalid edge forever, so the
fuel-indexed embedding yields none for every fuel, instead of the
invalid_sequence() return the spec promises. -/
theorem locate_out_of_range_never_returns :
    W1.contains 2 = true ∧ W1.count 2 ≤ 5
    ∧ ∀ fuel, locate W1 fuel (2, 5) = none := by
  refine ⟨by decide, by decide, ?_⟩
  intro fuel
  rw [locate, if_neg (by decide)]
  cases fuel with
  | zero => rfl
  | succ f =>
    simp only [locateLoop]
    rw [if_neg (by decide)]
    have hstep : W1.lfe (2, 5) = invalid_edge := by decide
    rw [hstep, locateLoop_stuck_at_invalid_edge]

theorem byteCodeRead_writeAux :
    ∀ (fuel value : Nat) (tail : List Nat), value ≤ fuel →
      byteCodeRead (byteCodeWriteAux fuel value ++ tail) = some (value, tail) := by
  intro fuel
  induction fuel with
  | zero =>
    intro value tail hv
    have h0 : value = 0 := by omega
    subst h0
    rfl
  | succ f ih =>
    intro value tail hv
    by_cases h7 : value ≤ 127
    · simp only [byteCodeWriteAux, if_pos h7, List.cons_append, List.nil_append,
        byteCodeRead, if_pos h7]
    · simp only [byteCodeWriteAux, if_neg h7, List.cons_append]
      have hb : ¬ (value % 128 + 128 ≤ 127) := by omega
      simp only [byteCodeRead, if_neg hb]
      rw [ih (value / 128) tail (by
        have := Nat.div_lt_self (show 0 < value by omega) (show 1 < 128 by omega)
        omega)]
      simp only [Option.map_some', Nat.add_sub_cancel]
      rw [Nat.mod_add_div value 128]

theorem byteCodeRead_write (value : Nat) (tail : List Nat) :
    byteCodeRead (byteCodeWrite value ++ tail) = some (value, tail) :=
  byteCodeRead_writeAux value value tail le_rfl

theorem byteCodeWrite_ne_nil (value : Nat) : byteCodeWrite value ≠ [] := by
  rw [byteCodeWrite]
  cases value with
  | zero => simp [byteCodeWriteAux]
  | succ v =>
    simp only [byteCodeWriteAux]
    by_cases h7 : v + 1 ≤ 127
    · simp [h7]
    · simp [h7]

theorem runRead_write (sigma value len : Nat) (tail : List Nat)
    (hv : value < sigma) (hl : 1 ≤ len) :
    runRead sigma (runWrite sigma value len ++ tail) = some ((value, len), tail) := by
  have hsigma : 0 < sigma := by omega
  by_cases h0 : runContinues sigma = 0
  · rw [runWrite, if_pos h0, runRead.eq_def, if_pos h0, List.append_assoc,
      byteCodeRead_write]
    simp only [Option.some_bind']
    rw [byteCodeRead_write]
    simp only [Option.map_some']
    have hlen : len - 1 + 1 = len := by omega
    rw [hlen]
  · have hrc : 1 ≤ runContinues sigma := by omega
    have hdiv : ∀ m : Nat, (value + sigma * m) / sigma = m := by
      intro m
      rw [Nat.add_mul_div_left _ _ hsigma, Nat.div_eq_of_lt hv]
      omega
    have hmod : ∀ m : Nat, (value + sigma * m) % sigma = value := by
      intro m
      rw [Nat.add_mul_mod_self_left, Nat.mod_eq_of_lt hv]
    by_cases hshort : len < runContinues sigma
    · rw [runWrite, if_neg h0, if_pos hshort, List.singleton_append, runRead.eq_def,
        if_neg h0]
      simp only [hdiv (len - 1), hmod (len - 1)]
      have hlen : len - 1 + 1 = len := by omega
      rw [hlen, if_pos hshort]
    · rw [runWrite, if_neg h0, if_neg hshort, List.cons_append, runRead.eq_def,
        if_neg h0]
      simp only [hdiv (runContinues sigma - 1), hmod (runContinues sigma - 1)]
      have hrc1 : runContinues sigma - 1 + 1 = runContinues sigma := by omega
      rw [hrc1, if_neg (by omega), byteCodeRead_write]
      simp only [Option.map_some']
      have hlen : runContinues sigma + (len - runContinues sigma) = len := by
        omega
      rw [hlen]

theorem runWrite_ne_nil (sigma value len : Nat) : runWrite sigma value len ≠ [] := by
  rw [runWrite]
  by_cases h0 : runContinues sigma = 0
  · rw [if_pos h0]
    intro h
    exact byteCodeWrite_ne_nil value (List.append_eq_nil.mp h).1
  · rw [if_neg h0]
    by_cases hshort : len < runContinues sigma
    · simp [hshort]
    · simp [hshort]

theorem runsReadAux_write (sigma : Nat) :
    ∀ (runs : List (Nat × Nat)) (fuel : Nat),
      (∀ r ∈ runs, r.1 < sigma ∧ 1 ≤ r.2) →
      (runsWrite sigma runs).length ≤ fuel →
      runsReadAux sigma fuel (runsWrite sigma runs) = some runs := by
  intro runs
  induction runs with
  | nil =>
    intro fuel _ _
    cases fuel <;> rfl
  | cons run rest ih =>
    obtain ⟨v, l⟩ := run
    intro fuel hwf hfuel
    have hv : v < sigma := (hwf (v, l) (by simp)).1
    have hl : 1 ≤ l := (hwf (v, l) (by simp)).2
    have hwrite : runsWrite sigma ((v, l) :: rest)
        = runWrite sigma v l ++ runsWrite sigma rest := rfl
    cases hw : runWrite sigma v l with
    | nil => exact absurd hw (runWrite_ne_nil sigma v l)
    | cons b bs =>
      rw [hwrite, hw] at hfuel ⊢
      simp only [List.cons_append] at hfuel ⊢
      cases fuel with
      | zero => simp at hfuel
      | succ f =>
        simp only [runsReadAux]
        have hread : runRead sigma (b :: (bs ++ runsWrite sigma rest))
            = some ((v, l), runsWrite sigma rest) := by
          have harr : b :: (bs ++ runsWrite sigma rest)
              = runWrite sigma v l ++ runsWrite sigma rest := by
            rw [hw, List.cons_append]
          rw [harr]
          exact runRead_write sigma v l _ hv hl
        rw [hread]
        simp only [Option.some_bind']
        rw [ih f (fun r hr => hwf r (List.mem_cons_of_mem _ hr)) (by
          simp only [List.length_cons, List.length_append] at hfuel
          omega)]
        rfl

theorem edgesRead_write :
    ∀ (es : List (Nat × Nat)) (prev : Nat) (tail : List Nat),
      List.Pairwise (fun a b => a.1 < b.1) es →
      (∀ e ∈ es, prev ≤ e.1) →
      edgesRead es.length prev (edgesWrite prev es ++ tail) = some (es, tail) := by
  intro es
  induction es with
  | nil => intro prev tail _ _; rfl
  | cons e rest ih =>
    obtain ⟨node, off⟩ := e
    intro prev tail hpw hge
    have hprev : prev ≤ node := hge (node, off) (by simp)
    obtain ⟨hhead, hrest⟩ := List.pairwise_cons.mp hpw
    simp only [edgesWrite, List.length_cons, edgesRead, List.append_assoc]
    rw [byteCodeRead_write]
    simp only [Option.some_bind']
    rw [byteCodeRead_write]
    simp only [Option.some_bind']
    have hnd : prev + (node - prev) = node := by omega
    rw [hnd]
    rw [ih node tail hrest (fun e2 he2 => Nat.le_of_lt (hhead e2 he2))]
    rfl

theorem fromBytes_writeBWT (d : DynamicRecord) (h : d.wf) :
    CompressedRecord.fromBytes d.writeBWT
      = some ⟨d.outgoing,
          if d.outgoing.length = 0 then []
          else runsWrite d.outgoing.length d.body⟩
    ∧ (CompressedRecord.mk d.outgoing
        (if d.outgoing.length = 0 then []
         else runsWrite d.outgoing.length d.body)).decodedRuns = some d.body := by
  obtain ⟨hpw, hruns, hsize⟩ := h
  constructor
  · rw [DynamicRecord.writeBWT, CompressedRecord.fromBytes, List.append_assoc,
      byteCodeRead_write]
    simp only [Option.some_bind']
    rw [edgesRead_write d.outgoing 0 _ hpw (fun e _ => Nat.zero_le e.1)]
    rfl
  · by_cases hk : d.outgoing.length = 0
    · have hbody : d.body = [] := by
        cases hb : d.body with
        | nil => rfl
        | cons r rs =>
          exfalso
          have := (hruns r (by rw [hb]; simp)).1
          omega
      rw [CompressedRecord.decodedRuns]
      simp only [hbody, if_pos hk]
      rfl
    · rw [CompressedRecord.decodedRuns]
      simp only [if_neg hk]
      exact runsReadAux_write _ d.body _ hruns le_rfl

theorem countP_replicate (p : Nat → Bool) (n a : Nat) :
    (List.replicate n a).countP p = if p a then n else 0 := by
  induction n with
  | zero => simp
  | succ k ih =>
    simp only [List.replicate_succ, List.countP_cons, ih]
    cases hp : p a
    all_goals simp [hp]

theorem replicate_getD (len r i : Nat) (h : i < len) :
    (List.replicate len r).getD i 0 = r := by
  induction len generalizing i with
  | zero => omega
  | succ k ih =>
    cases i with
    | zero => simp [List.replicate_succ]
    | succ j =>
      simp only [List.replicate_succ, List.getD_cons_succ]
      exact ih j (by omega)

theorem runsLen_eq_length (runs : List (Nat × Nat)) :
    runsLen runs = (runsExpand runs).length := by
  induction runs with
  | nil => rfl
  | cons run rest ih =>
    obtain ⟨v, l⟩ := run
    simp [runsLen, runsExpand, ih]

theorem crSymScan_spec :
    ∀ (runs : List (Nat × Nat)) (i : Nat), i < (runsExpand runs).length →
      crSymScan runs i = some ((runsExpand runs).getD i 0) := by
  intro runs
  induction runs with
  | nil => intro i h; simp [runsExpand] at h
  | cons run rest ih =>
    obtain ⟨r, len⟩ := run
    intro i h
    simp only [runsExpand] at h ⊢
    simp only [crSymScan]
    by_cases hi : i < len
    · rw [if_pos hi, List.getD_append _ _ _ _ (by simpa using hi),
        replicate_getD len r i hi]
    · rw [if_neg hi]
      push_neg at hi
      have hrest : i - len < (runsExpand rest).length := by
        simp only [List.length_append, List.length_replicate] at h
        omega
      rw [ih (i - len) hrest,
        List.getD_append_right _ _ _ _ (by simpa using hi)]
      simp

theorem crSymScan_none :
    ∀ (runs : List (Nat × Nat)) (i : Nat), (runsExpand runs).length ≤ i →
      crSymScan runs i = none := by
  intro runs
  induction runs with
  | nil => intro i _; rfl
  | cons run rest ih =>
    obtain ⟨r, len⟩ := run
    intro i h
    simp only [runsExpand, List.length_append, List.length_replicate] at h
    simp only [crSymScan]
    rw [if_neg (by omega)]
    exact ih (i - len) (by omega)

theorem crLFscan_spec :
    ∀ (runs : List (Nat × Nat)) (counts : Nat → Nat) (i : Nat),
      i < (runsExpand runs).length →
      crLFscan counts i runs
        = some ((runsExpand runs).getD i 0,
            counts ((runsExpand runs).getD i 0)
              + ((runsExpand runs).take i).count ((runsExpand runs).getD i 0)) := by
  intro runs
  induction runs with
  | nil => intro counts i h; simp [runsExpand] at h
  | cons run rest ih =>
    obtain ⟨r, len⟩ := run
    intro counts i h
    simp only [runsExpand] at h ⊢
    simp only [crLFscan]
    by_cases hi : i < len
    · rw [if_pos hi]
      have hg : (List.replicate len r ++ runsExpand rest).getD i 0 = r := by
        rw [List.getD_append _ _ _ _ (by simpa using hi), replicate_getD len r i hi]
      have ht : (List.replicate len r ++ runsExpand rest).take i
          = List.replicate i r := by
        rw [List.take_append_eq_append_take, List.take_replicate]
        have h1 : min i len = i := by omega
        have h2 : i - (List.replicate len r).length = 0 := by simp; omega
        rw [h1, h2]
        simp
      rw [hg, ht, List.count_replicate]
      simp
    · rw [if_neg hi]
      push_neg at hi
      have hrest : i - len < (runsExpand rest).length := by
        simp only [List.length_append, List.length_replicate] at h
        omega
      rw [ih (bumpCount counts r len) (i - len) hrest]
      have hg : (List.replicate len r ++ runsExpand rest).getD i 0
          = (runsExpand rest).getD (i - len) 0 := by
        rw [List.getD_append_right _ _ _ _ (by simpa using hi)]
        simp
      rw [← hg]
      generalize hsym : (List.replicate len r ++ runsExpand rest).getD i 0 = sym
      rw [hg] at hsym
      congr 1
      rw [Prod.mk.injEq]
      refine ⟨rfl, ?_⟩
      have htake : List.take i (List.replicate len r) = List.replicate len r :=
        List.take_of_length_le (by simpa using hi)
      rw [List.take_append_eq_append_take, List.count_append, htake,
        List.count_replicate]
      simp only [List.length_replicate]
      simp only [bumpCount]
      by_cases hsr : sym = r
      · rw [if_pos hsr, if_pos (by rw [hsr]; exact beq_self_eq_true r)]
        omega
      · have hbe : ¬ ((r == sym) = true) := by
          simp only [beq_iff_eq]
          exact fun hh => hsr hh.symm
        rw [if_neg hsr, if_neg hbe]
        omega

theorem crLFscan_none :
    ∀ (runs : List (Nat × Nat)) (counts : Nat → Nat) (i : Nat),
      (runsExpand runs).length ≤ i → crLFscan counts i runs = none := by
  intro runs
  induction runs with
  | nil => intro counts i _; rfl
  | cons run rest ih =>
    obtain ⟨r, len⟩ := run
    intro counts i h
    simp only [runsExpand, List.length_append, List.length_replicate] at h
    simp only [crLFscan]
    rw [if_neg (by omega)]
    exact ih _ (i - len) (by omega)

theorem crCountScan_spec :
    ∀ (runs : List (Nat × Nat)) (r i : Nat),
      crCountScan r runs i = ((runsExpand runs).take i).count r := by
  intro runs
  induction runs with
  | nil => intro r i; simp [crCountScan, runsExpand]
  | cons run rest ih =>
    obtain ⟨v, len⟩ := run
    intro r i
    simp only [crCountScan, runsExpand]
    rw [List.take_append_eq_append_take, List.count_append, ih,
      List.take_replicate, List.count_replicate]
    simp only [List.length_replicate]
    by_cases hvr : v = r
    · rw [if_pos hvr, if_pos (by rw [hvr]; exact beq_self_eq_true r)]
      have hmm : min i len = min len i := Nat.min_comm i len
      omega
    · have hbe : ¬ ((v == r) = true) := by
        simp only [beq_iff_eq]
        exact hvr
      rw [if_neg hvr, if_neg hbe]

theorem crBdScan_spec (outgoing : List (Nat × Nat)) (dest : Nat) :
    ∀ (runs : List (Nat × Nat)) (sp ep1 : Nat),
      crBdScan outgoing dest runs sp ep1
        = (((runsExpand runs).take ep1).drop sp).countP
            (fun s => Node.reverse (outgoing.getD s (0, 0)).1 < Node.reverse dest) := by
  intro runs
  induction runs with
  | nil => intro sp ep1; simp [crBdScan, runsExpand]
  | cons run rest ih =>
    obtain ⟨r, len⟩ := run
    intro sp ep1
    simp only [crBdScan, runsExpand]
    rw [List.take_append_eq_append_take, List.drop_append_eq_append_drop,
      List.countP_append, ih, List.take_replicate]
    simp only [List.length_take, List.length_replicate]
    rw [List.drop_replicate, countP_replicate]
    simp only [decide_eq_true_eq]
    by_cases hp : Node.reverse (outgoing.getD r (0, 0)).1 < Node.reverse dest
    · rw [if_pos hp, if_pos hp]
      by_cases hel : ep1 ≤ len
      · have h1 : ep1 - len = 0 := by omega
        rw [h1]
        simp only [List.take_zero, List.drop_nil, List.countP_nil]
        omega
      · have h2 : min ep1 len = len := by omega
        rw [h2]
        omega
    · rw [if_neg hp, if_neg hp]
      by_cases hel : ep1 ≤ len
      · have h1 : ep1 - len = 0 := by omega
        rw [h1]
        simp only [List.take_zero, List.drop_nil, List.countP_nil]
      · have h2 : min ep1 len = len := by omega
        rw [h2]

theorem LF_equiv (d : DynamicRecord) (c : CompressedRecord)
    (hout : c.outgoing = d.outgoing) (hrun : c.decodedRuns = some d.body)
    (hsize : d.body_size = (runsExpand d.body).length) (i : Nat) :
    c.LF i = d.LF i := by
  rw [CompressedRecord.LF, hrun, Option.some_bind']
  by_cases hi : i < (runsExpand d.body).length
  · rw [crLFscan_spec d.body (fun _ => 0) i hi, Option.map_some', Option.getD_some,
      DynamicRecord.LF, if_neg (by omega)]
    simp only [DynamicRecord.symbols, hout, Nat.zero_add]
  · rw [crLFscan_none d.body _ i (by omega), DynamicRecord.LF, if_pos (by omega)]
    rfl

theorem LFto_equiv (d : DynamicRecord) (c : CompressedRecord)
    (hout : c.outgoing = d.outgoing) (hrun : c.decodedRuns = some d.body)
    (i dest : Nat) : c.LFto i dest = d.LFto i dest := by
  rw [CompressedRecord.LFto, DynamicRecord.LFto, hout, hrun]
  by_cases he : d.outgoing.length ≤ edgeTo dest d.outgoing
  · rw [if_pos he, if_pos he]
  · rw [if_neg he, if_neg he, Option.map_some', Option.getD_some, crCountScan_spec]
    rfl

theorem LFrange_equiv (d : DynamicRecord) (c : CompressedRecord)
    (hout : c.outgoing = d.outgoing) (hrun : c.decodedRuns = some d.body)
    (rg : Nat × Nat) (dest : Nat) : c.LFrange rg dest = d.LFrange rg dest := by
  rw [CompressedRecord.LFrange, DynamicRecord.LFrange, hout,
    LFto_equiv d c hout hrun (rg.2 + 1) dest, LFto_equiv d c hout hrun rg.1 dest]

theorem bdLF_equiv (d : DynamicRecord) (c : CompressedRecord)
    (hout : c.outgoing = d.outgoing) (hrun : c.decodedRuns = some d.body)
    (rg : Nat × Nat) (dest : Nat) : c.bdLF rg dest = d.bdLF rg dest := by
  rw [CompressedRecord.bdLF, DynamicRecord.bdLF,
    LFrange_equiv d c hout hrun rg dest, hrun, Option.map_some', Option.getD_some,
    crBdScan_spec, hout]
  rfl

theorem nodeAt_equiv (d : DynamicRecord) (c : CompressedRecord)
    (hout : c.outgoing = d.outgoing) (hrun : c.decodedRuns = some d.body)
    (i : Nat) (hi : i < (runsExpand d.body).length) :
    c.nodeAt i = d.nodeAt i := by
  rw [CompressedRecord.nodeAt, hrun, Option.some_bind', crSymScan_spec d.body i hi,
    Option.map_some', Option.getD_some, DynamicRecord.nodeAt, hout]
  rfl

theorem size_equiv (d : DynamicRecord) (c : CompressedRecord)
    (hrun : c.decodedRuns = some d.body)
    (hsize : d.body_size = (runsExpand d.body).length) :
    c.size = d.size := by
  rw [CompressedRecord.size, hrun, Option.map_some', Option.getD_some,
    runsLen_eq_length, DynamicRecord.size, hsize]

theorem runs_equiv (d : DynamicRecord) (c : CompressedRecord)
    (hrun : c.decodedRuns = some d.body) : c.runs = d.runs := by
  rw [CompressedRecord.runs, hrun, Option.map_some', Option.getD_some,
    DynamicRecord.runs]

/-- Claim C1: for every well-formed dynamic record D, the compressed record
constructed from the bytes of D.writeBWT parses successfully and returns
results identical to D for every operation the compressed form supports:
LF(i) for every i (sentinels included), LF(i, to), LF(range, to) and bdLF on
all inputs, operator[] on every valid position, size, runs, outdegree, and
successor and offset on every valid outrank. -/
theorem compressed_record_roundtrip (d : DynamicRecord) (h : d.wf) :
    ∃ c : CompressedRecord,
      CompressedRecord.fromBytes d.writeBWT = some c
      ∧ c.size = d.size
      ∧ c.runs = d.runs
      ∧ c.outdegree = d.outdegree
      ∧ (∀ i, c.LF i = d.LF i)
      ∧ (∀ i dest, c.LFto i dest = d.LFto i dest)
      ∧ (∀ rg dest, c.LFrange rg dest = d.LFrange rg dest)
      ∧ (∀ rg dest, c.bdLF rg dest = d.bdLF rg dest)
      ∧ (∀ i, i < d.size → c.nodeAt i = d.nodeAt i)
      ∧ (∀ outrank, outrank < d.outdegree →
          c.successor outrank = d.successor outrank
          ∧ c.offset outrank = d.offset outrank) := by
  obtain ⟨hfrom, hrun⟩ := fromBytes_writeBWT d h
  obtain ⟨hpw, hruns, hsize⟩ := h
  refine ⟨⟨d.outgoing,
    if d.outgoing.length = 0 then [] else runsWrite d.outgoing.length d.body⟩,
    hfrom, size_equiv d _ hrun hsize, runs_equiv d _ hrun, rfl,
    fun i => LF_equiv d _ rfl hrun hsize i,
    fun i dest => LFto_equiv d _ rfl hrun i dest,
    fun rg dest => LFrange_equiv d _ rfl hrun rg dest,
    fun rg dest => bdLF_equiv d _ rfl hrun rg dest,
    fun i hi => nodeAt_equiv d _ rfl hrun i (by
      rw [DynamicRecord.size] at hi
      omega),
    fun outrank _ => ⟨rfl, rfl⟩⟩

/-- Witness for claim C1 at the concrete well-formed record D0, with
successors 4 and 6 and body runs (0,1), (1,2). -/
theorem compressed_record_roundtrip_witness :
    ∃ c : CompressedRecord,
      CompressedRecord.fromBytes D0.writeBWT = some c
      ∧ c.size = D0.size
      ∧ c.runs = D0.runs
      ∧ c.outdegree = D0.outdegree
      ∧ (∀ i, c.LF i = D0.LF i)
      ∧ (∀ i dest, c.LFto i dest = D0.LFto i dest)
      ∧ (∀ rg dest, c.LFrange rg dest = D0.LFrange rg dest)
      ∧ (∀ rg dest, c.bdLF rg dest = D0.bdLF rg dest)
      ∧ (∀ i, i < D0.size → c.nodeAt i = D0.nodeAt i)
      ∧ (∀ outrank, outrank < D0.outdegree →
          c.successor outrank = D0.successor outrank
          ∧ c.offset outrank = D0.offset outrank) :=
  compressed_record_roundtrip D0 ⟨by decide, by decide, by decide⟩

end GBWT
